import Mathlib

/-!
Shallow embedding of the schema-to-Sorbet type resolution engine
(`cmd/openapi-sorbet/main.go`, libopenapi-based version).

The Go program walks the component-schema map of an OpenAPI document and
produces a flat ordered list of `Type` records.  Go maps carry no iteration
order, so every place the program ranges over a map is modelled by an
association list whose order is an explicit input (one possible iteration
order).  Go panics (out-of-range indexing, nil-receiver method calls) are
modelled by `Option`: a `none` result means the run dies with a panic.
Calls to `log.Printf`/`log.Println` are modelled by an explicit list of
`Diag` values returned alongside the `Type` list.
-/

namespace SchemaSorbet

/-- A scalar literal as it appears in a schema's `enum` list after YAML/JSON
decoding (Go `interface{}` values). -/
inductive Lit where
  | str (s : String)
  | int (n : Int)
  | bool (b : Bool)
  | float
  deriving DecidableEq

/-- `reflect.TypeOf(x).String()` for the decoded literal. -/
def Lit.goTypeName : Lit → String
  | .str _ => "string"
  | .int _ => "int"
  | .bool _ => "bool"
  | .float => "float64"

/-- The Go type assertion `enum.(string)`. -/
def Lit.asString : Lit → Option String
  | .str s => some s
  | _ => none

mutual

/-- The fields of `base.Schema` (libopenapi) that the resolver reads:
`Type`, `Description`, `Enum`, `Required`, `Properties`, `Items`,
`AdditionalProperties`.  `Properties` is a Go map in the library; it is
modelled as an association list in one particular iteration order. -/
inductive Schema where
  | mk (type : List String) (description : String) (enum : Option (List Lit))
      (required : List String) (properties : List (String × SchemaProxy))
      (items : Option ItemsValue) (additionalProperties : AddPropsValue)

/-- `base.SchemaProxy`: either a `$ref` to another schema or an inline schema. -/
inductive SchemaProxy where
  | ref (target : String)
  | inline (s : Schema)

/-- `base.DynamicValue[*SchemaProxy, bool]` stored in `Schema.Items`:
`IsA()` (a sub-schema) or `IsB()` (the boolean `items: true` form).
A non-nil dynamic value is always one of the two. -/
inductive ItemsValue where
  | a (p : SchemaProxy)
  | b

/-- `Schema.AdditionalProperties` is `any` in Go: absent (nil), a boolean,
or a `*base.SchemaProxy`. -/
inductive AddPropsValue where
  | absent
  | boolV (b : Bool)
  | schemaV (p : SchemaProxy)

end

def Schema.type : Schema → List String
  | .mk t _ _ _ _ _ _ => t

def Schema.description : Schema → String
  | .mk _ d _ _ _ _ _ => d

def Schema.enum : Schema → Option (List Lit)
  | .mk _ _ e _ _ _ _ => e

def Schema.required : Schema → List String
  | .mk _ _ _ r _ _ _ => r

def Schema.properties : Schema → List (String × SchemaProxy)
  | .mk _ _ _ _ p _ _ => p

def Schema.items : Schema → Option ItemsValue
  | .mk _ _ _ _ _ i _ => i

def Schema.additionalProperties : Schema → AddPropsValue
  | .mk _ _ _ _ _ _ a => a

/-- An empty schema, stand-in result of resolving a proxy that the model
cannot resolve (reference resolution against the document index is outside
this model; the resolver only reaches `Schema()` on non-reference proxies
in the paths studied here). -/
def emptySchema : Schema := .mk [] "" none [] [] none .absent

/-- `SchemaProxy.IsReference()`. -/
def SchemaProxy.isReference : SchemaProxy → Bool
  | .ref _ => true
  | .inline _ => false

/-- `SchemaProxy.GetReference()`. -/
def SchemaProxy.getReference : SchemaProxy → String
  | .ref r => r
  | .inline _ => ""

/-- `SchemaProxy.Schema()`; see `emptySchema` for the reference case. -/
def SchemaProxy.schema : SchemaProxy → Schema
  | .ref _ => emptySchema
  | .inline s => s

/-- `strings.Split` on `/`, over the character list (String.splitOn does not
reduce in the kernel).  Matches Go: `Split("", "/") = [""]`, a trailing
slash yields a final empty segment. -/
def splitSlash : List Char → List (List Char)
  | [] => [[]]
  | c :: rest =>
    match splitSlash rest with
    | [] => [[]]
    | g :: gs => if c = '/' then [] :: g :: gs else (c :: g) :: gs

/-- `strings.Split(ref, "/")` followed by taking the last element. -/
def lastSegment (r : String) : String :=
  String.mk ((splitSlash r.toList).getLastD [])

/-- `strings.Trim(s, " ")`: drop leading and trailing spaces. -/
def trimSpacesList (l : List Char) : List Char :=
  ((l.dropWhile (· = ' ')).reverse.dropWhile (· = ' ')).reverse

/-- `strings.TrimSpace`: drop leading and trailing whitespace. -/
def goTrimSpace (s : String) : String :=
  String.mk (((s.toList.dropWhile Char.isWhitespace).reverse.dropWhile
    Char.isWhitespace).reverse)

/-- Byte-wise lexicographic `<` on Go strings (`a.Name < b.Name`), character
by character; on ASCII data this agrees with Go's byte comparison. -/
def lexLt : List Char → List Char → Bool
  | [], [] => false
  | [], _ :: _ => true
  | _ :: _, [] => false
  | c :: cs, d :: ds => if c < d then true else if d < c then false else lexLt cs ds

/-- Go string `<` as used by the property sort. -/
def goStringLt (a b : String) : Bool := lexLt a.toList b.toList

/-- The complementary total order `¬ (b < a)` of the Go sort's `less`. -/
def goStringLe (a b : String) : Bool := !goStringLt b a

/-- Modelled from the spec: the Naming Normalizer's Type form
("capitalized-word concatenation, no separators").  In the repository this
is the external library function `strcase.ToCamel`, whose source is not
part of the repository; the model capitalizes the first letter of each
word, where words are separated by underscore, space or hyphen, and other
non-alphanumeric characters are dropped. -/
def toCamelAux : List Char → Bool → List Char
  | [], _ => []
  | c :: rest, capNext =>
    if c.isAlpha then (if capNext then c.toUpper else c) :: toCamelAux rest false
    else if c.isDigit then c :: toCamelAux rest false
    else if c = '_' ∨ c = ' ' ∨ c = '-' then toCamelAux rest true
    else toCamelAux rest false

def toCamel (s : String) : String :=
  String.mk (toCamelAux (trimSpacesList s.toList) true)

/-- Modelled from the spec: the Naming Normalizer's property/file-slug form
("lowercase words joined by a single separator character").  In the
repository this is the external library function `strcase.ToSnake`: camel
word boundaries receive an underscore, existing separators are replaced by
the underscore, and the result is lowercased. -/
def toSnakeAux : List Char → List Char
  | [] => []
  | [c] => if c = ' ' ∨ c = '_' ∨ c = '-' then ['_'] else [c.toLower]
  | c :: next :: rest =>
    if c = ' ' ∨ c = '_' ∨ c = '-' then '_' :: toSnakeAux (next :: rest)
    else if c.isLower ∧ next.isUpper then c.toLower :: '_' :: toSnakeAux (next :: rest)
    else c.toLower :: toSnakeAux (next :: rest)

def toSnake (s : String) : String :=
  String.mk (toSnakeAux (trimSpacesList s.toList))

/-- `prepareComment`: `strings.TrimSpace`. -/
def prepareComment (s : String) : String := goTrimSpace s

def SorbetUntyped : String := "T.untyped"

/-- The Go `Property` record. -/
structure Property where
  ref : String := ""
  name : String := ""
  type : String := ""
  schemaName : String := ""
  required : Bool := false
  isArray : Bool := false
  deriving DecidableEq

/-- The ordering used by the property sort: the complement of the Go
`less` function `a.Name < b.Name` handed to `slices.SortStableFunc`. -/
def propLe (a b : Property) : Prop := goStringLe a.name b.name = true

instance : DecidableRel propLe := fun a b =>
  inferInstanceAs (Decidable (goStringLe a.name b.name = true))

/-- The Go `Enum` record: `Name` is the Ruby name for the enum value,
`Value` the value as defined in the schema. -/
structure Enum where
  name : String := ""
  value : String := ""
  deriving DecidableEq

/-- The Go `Type` record (named `Ty` here because `Type` is a Lean sort). -/
structure Ty where
  schemaName : String := ""
  typeName : String := ""
  filename : String := ""
  type : String := ""
  comment : String := ""
  baseClass : String := ""
  properties : List Property := []
  enum : List Enum := []
  -- the Go field `Alias` (`alias` is a Lean command keyword)
  aliasName : String := ""
  additionalProperties : String := ""
  isArray : Bool := false
  deriving DecidableEq

/-- `Type.IsObject()`. -/
def Ty.isObject (t : Ty) : Bool := "T::Struct" == t.baseClass

/-- `Type.IsEnum()`. -/
def Ty.isEnum (t : Ty) : Bool := t.enum.length > 0

/-- One value per `log.Printf`/`log.Println` call site of the resolver,
carrying the data interpolated into the message. -/
inductive Diag where
  | warnEnumFirstNonString (name : String) (goType : String)
  | warnEnumSkip (name : String)
  | skipPropNoType (name propertyName : String)
  | unmatchedItemsTypeObject (name ty : String)
  | unsetItemsTypeObject (name : String)
  | unmatchedPropType (name propertyName ty : String)
  | unmatchedAdditionalProps (name ty : String)
  | unsetAdditionalProps (name : String)
  | unmatchedItemsTypeArr (name ty : String)
  | unsetItemsTypeArr (name : String)
  | skipNoType (name : String)
  | unmatchedSchemaType (name : String)
  | skipReferenceSchema (name : String)
  | missingTypeData (name : String)
  deriving DecidableEq

/-- One iteration of the `for _, enum := range v.Enum` loop of
`parseString`: a literal that fails the `.(string)` assertion is skipped
with a warning, a string literal appends an `Enum` entry. -/
def enumStep (name : String) (acc : List Enum × List Diag) (lit : Lit) :
    List Enum × List Diag :=
  match lit.asString with
  | none => (acc.1, acc.2 ++ [Diag.warnEnumSkip name])
  | some val => (acc.1 ++ [{ name := toCamel val, value := val }], acc.2)

/-- `parseString`.  A `none` result models the Go panic: when `v.Enum` is
non-nil but empty, `v.Enum[0]` raises an index-out-of-range panic. -/
def parseString (name : String) (v : Schema) : Option (List Ty × List Diag) :=
  let t : Ty := { schemaName := name, typeName := toCamel name,
                  filename := toSnake name, comment := prepareComment v.description,
                  aliasName := "String" }
  match v.enum with
  | none => some ([t], [])
  | some lits =>
    match lits with
    | [] => none
    | first :: _ =>
      let warnFirst : List Diag :=
        if first.goTypeName ≠ "string" then
          [.warnEnumFirstNonString name first.goTypeName]
        else []
      let folded := lits.foldl (enumStep name) ([], [])
      some ([{ t with enum := folded.1 }], warnFirst ++ folded.2)

/-- `parseBoolean`. -/
def parseBoolean (name : String) (v : Schema) : List Ty :=
  [{ schemaName := name, typeName := toCamel name, filename := toSnake name,
     comment := prepareComment v.description, aliasName := "T::Boolean" }]

/-- The additional-properties block at the end of `parseObject`: yields the
`AdditionalProperties` string of the record plus any diagnostics.  A Go
boolean `false` value is non-nil but fails the `*base.SchemaProxy` type
assertion, so nothing happens. -/
def parseAdditionalProps (name : String) : AddPropsValue → String × List Diag
  | .boolV true => (SorbetUntyped, [])
  | .boolV false => ("", [])
  | .absent => ("", [])
  | .schemaV sp =>
    match sp.schema.type with
    | [] => ("", [.unsetAdditionalProps name])
    | ty0 :: _ =>
      if ty0 = "string" then ("String", [])
      else if ty0 = "integer" then ("Integer", [])
      else ("", [.unmatchedAdditionalProps name ty0])

/-- The property record as first assembled at the top of the Go range-loop
body: snake-cased name, original schema name, `T.untyped`, required iff the
original name is in the schema's required set. -/
def initialProp (required : List String) (propertyName : String) : Property :=
  { name := toSnake propertyName, schemaName := propertyName,
    type := SorbetUntyped,
    required := required.contains propertyName }

mutual

/-- `parseObject`: builds the struct-shaped record for `name`, emitting the
records synthesized for inline nested object properties ahead of it.  The
property list is sorted with a stable sort by property name
(`slices.SortStableFunc` with `a.Name < b.Name`, modelled by the stable
`insertionSort` with the complementary total order `a.name ≤ b.name`).
The schema is taken apart by its constructor (the fields read are
`Description`, `Required`, `Properties` and `AdditionalProperties`). -/
def parseObject (name : String) : Schema → Option (List Ty × List Diag)
  | .mk _ desc _ req props _ ap =>
    let t : Ty := { schemaName := name, typeName := toCamel name,
                    filename := toSnake name, comment := prepareComment desc,
                    baseClass := "T::Struct" }
    match parseProperties name req props with
    | none => none
    | some (childTypes, propList, propDiags) =>
      let sortedProps := propList.insertionSort propLe
      let apResult := parseAdditionalProps name ap
      some (childTypes ++ [{ t with
                              properties := sortedProps,
                              additionalProperties := apResult.1 }],
            propDiags ++ apResult.2)

/-- The body of the `range v.Properties` loop of `parseObject`, for one
entry `propertyName: v2`.  Returns the child records emitted while handling
the entry, the finished property (`none` when the loop `continue`s without
appending one), and the diagnostics. -/
def parsePropertyValue (name : String) (required : List String)
    (propertyName : String) :
    SchemaProxy → Option (List Ty × Option Property × List Diag)
  | .ref r =>
    some ([], some { initialProp required propertyName with
                      type := toCamel (lastSegment r) }, [])
  | .inline schema =>
    let prop := initialProp required propertyName
    match schema.type with
    | [] =>
      -- "Skipping property %s.%s as no Type was present" + `continue`
      some ([], none, [.skipPropNoType name propertyName])
    | ty0 :: _ =>
      if ty0 = "string" then some ([], some { prop with type := "String" }, [])
      else if ty0 = "boolean" then
        some ([], some { prop with type := "T::Boolean" }, [])
      else if ty0 = "integer" then
        some ([], some { prop with type := "Integer" }, [])
      else if ty0 = "object" then
        match parseObject (name ++ "_" ++ propertyName) schema with
        | none => none
        | some (childTypes, childDiags) =>
          some (childTypes,
                some { prop with type := toCamel (name ++ "_" ++ propertyName) },
                childDiags)
      else if ty0 = "array" then
        let prop := { prop with isArray := true, type := SorbetUntyped }
        match schema.items with
        | none => none  -- `schema.Items.IsB()` on a nil receiver panics
        | some .b => some ([], some prop, [])
        | some (.a s) =>
          match s with
          | .ref r =>
            some ([], some { prop with type := toCamel (lastSegment r) }, [])
          | .inline si =>
            match si.type with
            | [] => some ([], some prop, [.unsetItemsTypeObject name])
            | it0 :: _ =>
              if it0 = "string" then some ([], some { prop with type := "String" }, [])
              else if it0 = "integer" then
                some ([], some { prop with type := "Integer" }, [])
              else some ([], some prop, [.unmatchedItemsTypeObject name it0])
      else some ([], some prop, [.unmatchedPropType name propertyName ty0])

/-- The `range v.Properties` loop of `parseObject`, in the iteration order
given by the list.  Returns the synthesized child records, the (unsorted)
property list, and the diagnostics, in emission order. -/
def parseProperties (name : String) (required : List String) :
    List (String × SchemaProxy) → Option (List Ty × List Property × List Diag)
  | [] => some ([], [], [])
  | (propertyName, v2) :: rest =>
    match parsePropertyValue name required propertyName v2 with
    | none => none
    | some (cts, propOpt, ds1) =>
      match parseProperties name required rest with
      | none => none
      | some (ts, ps, ds2) =>
        some (cts ++ ts,
              (match propOpt with | some p => p :: ps | none => ps),
              ds1 ++ ds2)

end

attribute [simp] Schema.type Schema.description Schema.enum Schema.required
  Schema.properties Schema.items Schema.additionalProperties

/-- `parseArray`.  The reference case sets the alias to the raw final path
segment of the reference (no normalization). -/
def parseArray (name : String) (v : Schema) : Option (List Ty × List Diag) :=
  let t : Ty := { schemaName := name, typeName := toCamel name,
                  filename := toSnake name, comment := prepareComment v.description,
                  aliasName := SorbetUntyped, isArray := true }
  match v.items with
  | none => none  -- `v.Items.IsB()` on a nil receiver panics
  | some .b =>
    some ([{ t with aliasName := "", additionalProperties := SorbetUntyped }], [])
  | some (.a s) =>
    match s with
    | .ref r => some ([{ t with aliasName := lastSegment r }], [])
    | .inline si =>
      match si.type with
      | [] => some ([t], [.unsetItemsTypeArr name])
      | ty0 :: _ =>
        if ty0 = "string" then some ([{ t with aliasName := "String" }], [])
        else if ty0 = "integer" then some ([{ t with aliasName := "Integer" }], [])
        else some ([t], [.unmatchedItemsTypeArr name ty0])

/-- `parseSchema`: dispatch on the declared type tag. -/
def parseSchema (name : String) (v : Schema) : Option (List Ty × List Diag) :=
  match v.type with
  | [] => some ([], [.skipNoType name])
  | ty0 :: _ =>
    if ty0 = "string" then parseString name v
    else if ty0 = "boolean" then some (parseBoolean name v, [])
    else if ty0 = "object" then parseObject name v
    else if ty0 = "array" then parseArray name v
    else some ([], [.unmatchedSchemaType name])

/-- The schema loop of `main`: ranges over `d.Model.Components.Schemas` (a
Go map, so the list order is one possible iteration order), skipping
reference entries and concatenating the records of each schema. -/
def resolveAll : List (String × SchemaProxy) → Option (List Ty × List Diag)
  | [] => some ([], [])
  | (k, sp) :: rest =>
    match sp with
    | .ref _ =>
      match resolveAll rest with
      | none => none
      | some (ts, ds) => some (ts, .skipReferenceSchema k :: ds)
    | .inline schema =>
      match parseSchema k schema with
      | none => none
      | some (types, ds1) =>
        let missing : List Diag :=
          if types.length = 0 then [.missingTypeData k] else []
        match resolveAll rest with
        | none => none
        | some (ts, ds2) => some (types ++ ts, ds1 ++ missing ++ ds2)

/-! Concrete schemas and expected records used by the claim theorems. -/

/-- `type: string`, nothing else. -/
def exStringSchema : Schema := .mk ["string"] "" none [] [] none .absent

/-- `type: boolean`, nothing else. -/
def exBooleanSchema : Schema := .mk ["boolean"] "" none [] [] none .absent

/-- `type: string` with `enum: ["available"]`. -/
def exAvailSchema : Schema :=
  .mk ["string"] "" (some [.str "available"]) [] [] none .absent

/-- `type: string` with `enum: ["available", "pending", 42]`. -/
def exStatusEnumSchema : Schema :=
  .mk ["string"] "" (some [.str "available", .str "pending", .int 42]) [] [] none .absent

/-- `type: string` with `enum: []`: the literal list is present but empty. -/
def exEmptyEnumSchema : Schema := .mk ["string"] "" (some []) [] [] none .absent

/-- The record emitted for `exAvailSchema` under the name `status`. -/
def exStatusTy : Ty :=
  { schemaName := "status", typeName := "Status", filename := "status",
    aliasName := "String", enum := [{ name := "Available", value := "available" }] }

/-- The record emitted for `exStatusEnumSchema` under the name `petStatus`. -/
def exPetStatusTy : Ty :=
  { schemaName := "petStatus", typeName := "PetStatus", filename := "pet_status",
    aliasName := "String",
    enum := [{ name := "Available", value := "available" },
             { name := "Pending", value := "pending" }] }

/-- An object schema's property map `{zebra, apple, mango}`, each property a
plain string schema, in one iteration order. -/
def zamEntries : List (String × SchemaProxy) :=
  [("zebra", .inline exStringSchema), ("apple", .inline exStringSchema),
   ("mango", .inline exStringSchema)]

/-- The object schema holding `zamEntries`. -/
def basketSchema : Schema := .mk ["object"] "" none [] zamEntries none .absent

/-- The record emitted for `basketSchema`: properties sorted by name. -/
def basketTy : Ty :=
  { schemaName := "Basket", typeName := "Basket", filename := "basket",
    baseClass := "T::Struct",
    properties := [{ name := "apple", type := "String", schemaName := "apple" },
                   { name := "mango", type := "String", schemaName := "mango" },
                   { name := "zebra", type := "String", schemaName := "zebra" }] }

/-- The inline nested object sub-schema of `Pet`'s `address` property. -/
def exAddressSubSchema : Schema :=
  .mk ["object"] "" none [] [("street", .inline exStringSchema)] none .absent

/-- `Pet`: an object with a required string `name` and an inline nested
object property `address`. -/
def exPetSchema : Schema :=
  .mk ["object"] "" none ["name"]
    [("name", .inline exStringSchema),
     ("address", .inline exAddressSubSchema)]
    none .absent

/-- The synthesized record for `Pet`'s nested `address` property. -/
def exPetAddressTy : Ty :=
  { schemaName := "Pet_address", typeName := "PetAddress", filename := "pet_address",
    baseClass := "T::Struct",
    properties := [{ name := "street", type := "String", schemaName := "street" }] }

/-- The parent record for `Pet`. -/
def exPetTy : Ty :=
  { schemaName := "Pet", typeName := "Pet", filename := "pet",
    baseClass := "T::Struct",
    properties := [{ name := "address", type := "PetAddress", schemaName := "address" },
                   { name := "name", type := "String", schemaName := "name",
                     required := true }] }

/-- An object with no properties and `additionalProperties` an
integer-typed schema. -/
def exIntMapSchema : Schema :=
  .mk ["object"] "" none [] [] none
    (.schemaV (.inline (.mk ["integer"] "" none [] [] none .absent)))

/-- The record emitted for `exIntMapSchema` under the name `Data`. -/
def exIntMapTy : Ty :=
  { schemaName := "Data", typeName := "Data", filename := "data",
    baseClass := "T::Struct", additionalProperties := "Integer" }

/-- An object with one property `tags` declared `type: array` with
`items: true`. -/
def exItemsBObjSchema : Schema :=
  .mk ["object"] "" none []
    [("tags", .inline (.mk ["array"] "" none [] [] (some .b) .absent))] none .absent

/-- The record emitted for `exItemsBObjSchema` under the name `Pet`. -/
def exItemsBTy : Ty :=
  { schemaName := "Pet", typeName := "Pet", filename := "pet",
    baseClass := "T::Struct",
    properties := [{ name := "tags", type := "T.untyped", schemaName := "tags",
                     isArray := true }] }

/-- A top-level array schema whose items are a reference whose final path
segment is not in PascalCase. -/
def exTagsSchema : Schema :=
  .mk ["array"] "" none [] [] (some (.a (.ref "#/components/schemas/pet_tag"))) .absent

/-- The record emitted for `exTagsSchema` under the name `Tags`. -/
def exTagsTy : Ty :=
  { schemaName := "Tags", typeName := "Tags", filename := "tags",
    aliasName := "pet_tag", isArray := true }

/-- A two-entry component-schema map in one iteration order... -/
def exDocAB : List (String × SchemaProxy) :=
  [("A", .inline exStringSchema), ("B", .inline exBooleanSchema)]

/-- ... and the same map in the other iteration order. -/
def exDocBA : List (String × SchemaProxy) :=
  [("B", .inline exBooleanSchema), ("A", .inline exStringSchema)]

/-- An object schema with two inline nested-object properties, in one
iteration order of its property map. -/
def exTwoNested : Schema :=
  .mk ["object"] "" none []
    [("p1", .inline (.mk ["object"] "" none [] [] none .absent)),
     ("p2", .inline (.mk ["object"] "" none [] [] none .absent))] none .absent

/-- The same object schema, property map iterated in the other order. -/
def exTwoNestedB : Schema :=
  .mk ["object"] "" none []
    [("p2", .inline (.mk ["object"] "" none [] [] none .absent)),
     ("p1", .inline (.mk ["object"] "" none [] [] none .absent))] none .absent

/-- The property record built for a plain string property (used to phrase
the property-loop output on `zamEntries`). -/
def basketProp (e : String × SchemaProxy) : Property :=
  { name := toSnake e.1, schemaName := e.1, type := "String" }

/-! Order-theoretic facts about the byte-lexicographic comparison driving
the property sort. -/

theorem lexLt_asymm : ∀ (a b : List Char), lexLt a b = true → lexLt b a = false := by
  intro a
  induction a with
  | nil =>
    intro b h
    cases b with
    | nil => simp [lexLt] at h
    | cons d ds => simp [lexLt]
  | cons c cs ih =>
    intro b h
    cases b with
    | nil => simp [lexLt] at h
    | cons d ds =>
      simp only [lexLt] at h ⊢
      by_cases h1 : c < d
      · have h2 : ¬ d < c := lt_asymm h1
        simp [h1, h2]
      · by_cases h2 : d < c
        · simp [h1, h2] at h
        · simp [h1, h2] at h ⊢
          exact ih ds h

theorem lexLt_negtrans :
    ∀ (a b c : List Char), lexLt a b = false → lexLt b c = false → lexLt a c = false := by
  intro a
  induction a with
  | nil =>
    intro b c h1 h2
    cases b with
    | nil => exact h2
    | cons y ys => simp [lexLt] at h1
  | cons x xs ih =>
    intro b c h1 h2
    cases c with
    | nil => simp [lexLt]
    | cons z zs =>
      cases b with
      | nil => simp [lexLt] at h2
      | cons y ys =>
        simp only [lexLt] at h1 h2 ⊢
        by_cases hxy : x < y
        · simp [hxy] at h1
        · by_cases hyz : y < z
          · simp [hyz] at h2
          · have hzy : z ≤ y := not_lt.mp hyz
            have hyx : y ≤ x := not_lt.mp hxy
            have hzx : z ≤ x := le_trans hzy hyx
            have hxz : ¬ x < z := not_lt.mpr hzx
            simp only [hxz, if_false]
            by_cases hzx' : z < x
            · simp [hzx']
            · have hxz' : x = z := le_antisymm (not_lt.mp hzx') hzx
              have hxy' : x = y := le_antisymm (hxz' ▸ hzy) hyx
              simp only [hxy', lt_irrefl, if_false] at h1
              simp only [hxz' ▸ hxy'.symm, lt_irrefl, if_false] at h2
              simp only [hzx', if_false]
              exact ih ys zs h1 h2

theorem lexLt_connex :
    ∀ (a b : List Char), lexLt a b = false → lexLt b a = false → a = b := by
  intro a
  induction a with
  | nil =>
    intro b h1 _
    cases b with
    | nil => rfl
    | cons y ys => simp [lexLt] at h1
  | cons x xs ih =>
    intro b h1 h2
    cases b with
    | nil => simp [lexLt] at h2
    | cons y ys =>
      simp only [lexLt] at h1 h2
      by_cases hxy : x < y
      · simp [hxy] at h1
      · by_cases hyx : y < x
        · simp [hyx, hxy] at h2
        · have hx : x = y := le_antisymm (not_lt.mp hyx) (not_lt.mp hxy)
          simp only [hxy, hyx, if_false] at h1
          simp only [hxy, hyx, hx ▸ hxy, if_false] at h2
          have := ih ys h1 (by simpa [hx] using h2)
          simp [hx, this]

/-- The Prop form of `goStringLe`. -/
def strLe (a b : String) : Prop := goStringLe a b = true

instance : DecidableRel strLe := fun a b =>
  inferInstanceAs (Decidable (goStringLe a b = true))

theorem strLe_total (a b : String) : strLe a b ∨ strLe b a := by
  by_cases h : lexLt b.toList a.toList = true
  · right
    have h2 := lexLt_asymm _ _ h
    simp only [strLe, goStringLe, goStringLt, Bool.not_eq_true']
    exact h2
  · left
    simp only [Bool.not_eq_true] at h
    simp only [strLe, goStringLe, goStringLt, Bool.not_eq_true']
    exact h

theorem strLe_trans {a b c : String} (h1 : strLe a b) (h2 : strLe b c) : strLe a c := by
  simp only [strLe, goStringLe, goStringLt, Bool.not_eq_true', Bool.not_eq_true] at h1 h2 ⊢
  exact lexLt_negtrans _ _ _ h2 h1

theorem strLe_antisymm {a b : String} (h1 : strLe a b) (h2 : strLe b a) : a = b := by
  simp only [strLe, goStringLe, goStringLt, Bool.not_eq_true', Bool.not_eq_true] at h1 h2
  exact congrArg String.mk (lexLt_connex _ _ h2 h1)

instance : IsTotal String strLe := ⟨strLe_total⟩

instance : IsTrans String strLe := ⟨fun _ _ _ => strLe_trans⟩

instance : IsAntisymm String strLe := ⟨fun _ _ => strLe_antisymm⟩

theorem propLe_iff_strLe (a b : Property) : propLe a b ↔ strLe a.name b.name := Iff.rfl

instance : IsTotal Property propLe := ⟨fun a b => strLe_total a.name b.name⟩

instance : IsTrans Property propLe := ⟨fun _ _ _ h1 h2 => strLe_trans h1 h2⟩

/-! Structural facts about the resolver. -/

/-- The record `parseObject` appends last: the parent struct record. -/
def parentRecord (name : String) (v : Schema) (propList : List Property) : Ty :=
  { schemaName := name, typeName := toCamel name, filename := toSnake name,
    comment := prepareComment v.description, baseClass := "T::Struct",
    properties := propList.insertionSort propLe,
    additionalProperties := (parseAdditionalProps name v.additionalProperties).1 }

/-- A successful `parseObject` run decomposes into the property-loop result
followed by the parent record appended last. -/
theorem parseObject_decomp (name : String) (v : Schema) (ts : List Ty) (ds : List Diag)
    (h : parseObject name v = some (ts, ds)) :
    ∃ childTypes propList propDiags,
      parseProperties name v.required v.properties = some (childTypes, propList, propDiags) ∧
      ts = childTypes ++ [parentRecord name v propList] ∧
      ds = propDiags ++ (parseAdditionalProps name v.additionalProperties).2 := by
  cases v with
  | mk ty desc e req props items ap =>
    simp only [parseObject] at h
    cases hpp : parseProperties name req props with
    | none => rw [hpp] at h; simp at h
    | some r =>
      obtain ⟨cts, pl, pds⟩ := r
      rw [hpp] at h
      simp only [Option.some.injEq, Prod.mk.injEq] at h
      exact ⟨cts, pl, pds, by simpa using hpp,
        by simp [parentRecord, ← h.1], by simp [← h.2]⟩

/-- Child records can only come from the `object` arm of the property loop:
either an entry emits no children, or its proxy is an inline object schema
and the children (and diagnostics) are exactly a recursive `parseObject`
run on the synthesized name. -/
theorem parsePropertyValue_children (name : String) (req : List String)
    (pn : String) (v2 : SchemaProxy) (cts : List Ty) (p : Option Property)
    (ds : List Diag)
    (h : parsePropertyValue name req pn v2 = some (cts, p, ds)) :
    cts = [] ∨
    (∃ schema, v2 = SchemaProxy.inline schema ∧
      schema.type.head? = some "object" ∧
      parseObject (name ++ "_" ++ pn) schema = some (cts, ds) ∧
      p = some { initialProp req pn with type := toCamel (name ++ "_" ++ pn) }) := by
  cases v2 with
  | ref r =>
    simp only [parsePropertyValue, Option.some.injEq, Prod.mk.injEq] at h
    exact Or.inl h.1.symm
  | inline schema =>
    cases schema with
    | mk sty sdesc se sreq sprops sitems sap =>
      simp only [parsePropertyValue, Schema.type] at h
      cases sty with
      | nil =>
        simp only [Option.some.injEq, Prod.mk.injEq] at h
        exact Or.inl h.1.symm
      | cons ty0 tyrest =>
        repeat' split at h
        all_goals cases h
        all_goals try exact Or.inl rfl
        rename_i hpo
        refine Or.inr ⟨_, rfl, ?_, hpo, rfl⟩
        simp only [Schema.type, List.head?, Option.some.injEq]
        simp_all

/-- One step of the property loop. -/
theorem parseProperties_cons (name : String) (req : List String) (pn : String)
    (v2 : SchemaProxy) (rest : List (String × SchemaProxy)) (cts : List Ty)
    (ps : List Property) (ds : List Diag)
    (h : parseProperties name req ((pn, v2) :: rest) = some (cts, ps, ds)) :
    ∃ cts1 p1 ds1 cts2 ps2 ds2,
      parsePropertyValue name req pn v2 = some (cts1, p1, ds1) ∧
      parseProperties name req rest = some (cts2, ps2, ds2) ∧
      cts = cts1 ++ cts2 ∧
      ps = (match p1 with | some p => p :: ps2 | none => ps2) ∧
      ds = ds1 ++ ds2 := by
  simp only [parseProperties] at h
  cases hpv : parsePropertyValue name req pn v2 with
  | none => rw [hpv] at h; simp at h
  | some r1 =>
    obtain ⟨cts1, p1, ds1⟩ := r1
    rw [hpv] at h
    cases hpr : parseProperties name req rest with
    | none => rw [hpr] at h; simp at h
    | some r2 =>
      obtain ⟨cts2, ps2, ds2⟩ := r2
      rw [hpr] at h
      simp only [Option.some.injEq, Prod.mk.injEq] at h
      exact ⟨cts1, p1, ds1, cts2, ps2, ds2, rfl, rfl, h.1.symm, h.2.1.symm, h.2.2.symm⟩

/-- Every child record collected by the property loop was emitted while
handling some entry of the list. -/
theorem parseProperties_children_mem (name : String) (req : List String) :
    ∀ (l : List (String × SchemaProxy)) (cts : List Ty) (ps : List Property)
      (ds : List Diag), parseProperties name req l = some (cts, ps, ds) →
      ∀ t ∈ cts, ∃ pn v2 cts1 p1 ds1, (pn, v2) ∈ l ∧
        parsePropertyValue name req pn v2 = some (cts1, p1, ds1) ∧ t ∈ cts1 := by
  intro l
  induction l with
  | nil =>
    intro cts ps ds h t ht
    simp only [parseProperties, Option.some.injEq, Prod.mk.injEq] at h
    rw [← h.1] at ht
    cases ht
  | cons e rest ihl =>
    obtain ⟨pn, v2⟩ := e
    intro cts ps ds h t ht
    obtain ⟨cts1, p1, ds1, cts2, ps2, ds2, hpv, hpr, hcts, _, _⟩ :=
      parseProperties_cons name req pn v2 rest cts ps ds h
    subst hcts
    rcases List.mem_append.mp ht with hmem | hmem
    · exact ⟨pn, v2, cts1, p1, ds1, List.mem_cons_self _ _, hpv, hmem⟩
    · obtain ⟨pn', v2', cts1', p1', ds1', hin, hpv', htin⟩ :=
        ihl cts2 ps2 ds2 hpr t hmem
      exact ⟨pn', v2', cts1', p1', ds1', List.mem_cons_of_mem _ hin, hpv', htin⟩

/-- The shape every record emitted by `parseObject` has: struct base class,
empty alias, empty enum list. -/
def structShaped (t : Ty) : Prop :=
  t.baseClass = "T::Struct" ∧ t.aliasName = "" ∧ t.enum = []

theorem parseObject_struct_aux :
    ∀ n : Nat, ∀ (name : String) (v : Schema) (ts : List Ty) (ds : List Diag),
      sizeOf v ≤ n → parseObject name v = some (ts, ds) →
      ∀ t ∈ ts, structShaped t := by
  intro n
  induction n using Nat.strong_induction_on with
  | _ n ih =>
    intro name v ts ds hsz h t ht
    obtain ⟨cts, pl, pds, hpp, hts, _⟩ := parseObject_decomp name v ts ds h
    subst hts
    rcases List.mem_append.mp ht with hmem | hmem
    · obtain ⟨pn, v2, cts1, p1, ds1, hin, hpv, htin⟩ :=
        parseProperties_children_mem name v.required v.properties cts pl pds hpp t hmem
      rcases parsePropertyValue_children name v.required pn v2 cts1 p1 ds1 hpv with
        hnil | ⟨schema, hv2, _, hpo, _⟩
      · rw [hnil] at htin
        cases htin
      · subst hv2
        have h1 := List.sizeOf_lt_of_mem hin
        have h2 : sizeOf v.properties < sizeOf v := by
          cases v
          simp [Schema.properties]
          omega
        have h3 : sizeOf schema < sizeOf (pn, SchemaProxy.inline schema) := by
          simp
          omega
        exact ih (sizeOf schema) (by omega) _ _ _ _ le_rfl hpo t htin
    · simp only [List.mem_singleton] at hmem
      subst hmem
      exact ⟨rfl, rfl, rfl⟩

/-- All records emitted by `parseObject`, the synthesized children
included, are struct-shaped. -/
theorem parseObject_struct (name : String) (v : Schema) (ts : List Ty)
    (ds : List Diag) (h : parseObject name v = some (ts, ds)) :
    ∀ t ∈ ts, structShaped t :=
  parseObject_struct_aux (sizeOf v) name v ts ds le_rfl h

theorem parseString_fields (name : String) (v : Schema) (ts : List Ty)
    (ds : List Diag) (h : parseString name v = some (ts, ds)) :
    ∀ t ∈ ts, t.aliasName = "String" ∧ t.baseClass = "" ∧ t.properties = [] := by
  intro t ht
  simp only [parseString] at h
  repeat' split at h
  all_goals cases h
  all_goals (simp only [List.mem_singleton] at ht; subst ht; exact ⟨rfl, rfl, rfl⟩)

theorem parseArray_fields (name : String) (v : Schema) (ts : List Ty)
    (ds : List Diag) (h : parseArray name v = some (ts, ds)) :
    ∀ t ∈ ts, t.baseClass = "" ∧ t.enum = [] ∧ t.properties = [] := by
  intro t ht
  simp only [parseArray] at h
  repeat' split at h
  all_goals cases h
  all_goals (simp only [List.mem_singleton] at ht; subst ht; exact ⟨rfl, rfl, rfl⟩)

/-- The (corrected) shape invariant of an emitted record: a struct record
carries no alias and no enum list, and an enum-shaped record always also
carries the alias `"String"` and no struct base class. -/
def shapeInv (t : Ty) : Prop :=
  (t.baseClass = "T::Struct" → t.aliasName = "" ∧ t.enum = []) ∧
  (t.enum ≠ [] → t.aliasName = "String" ∧ t.baseClass = "")

theorem parseSchema_shapeInv (name : String) (v : Schema) (ts : List Ty)
    (ds : List Diag) (h : parseSchema name v = some (ts, ds)) :
    ∀ t ∈ ts, shapeInv t := by
  intro t ht
  simp only [parseSchema] at h
  split at h
  · cases h
    cases ht
  · rename_i ty0 tyrest hty
    by_cases h1 : ty0 = "string"
    · rw [if_pos h1] at h
      obtain ⟨ha, hb, _⟩ := parseString_fields name v ts ds h t ht
      refine ⟨fun hbc => ?_, fun _ => ⟨ha, hb⟩⟩
      rw [hb] at hbc
      exact absurd hbc (by decide)
    · rw [if_neg h1] at h
      by_cases h2 : ty0 = "boolean"
      · rw [if_pos h2] at h
        cases h
        simp only [parseBoolean, List.mem_singleton] at ht
        subst ht
        refine ⟨fun hbc => ?_, fun he => absurd rfl he⟩
        exact absurd (show ("" : String) = "T::Struct" from hbc) (by decide)
      · rw [if_neg h2] at h
        by_cases h3 : ty0 = "object"
        · rw [if_pos h3] at h
          obtain ⟨ha, hb, hc⟩ := parseObject_struct name v ts ds h t ht
          exact ⟨fun _ => ⟨hb, hc⟩, fun he => absurd hc he⟩
        · rw [if_neg h3] at h
          by_cases h4 : ty0 = "array"
          · rw [if_pos h4] at h
            obtain ⟨ha, hb, _⟩ := parseArray_fields name v ts ds h t ht
            refine ⟨fun hbc => ?_, fun he => absurd hb he⟩
            rw [ha] at hbc
            exact absurd hbc (by decide)
          · rw [if_neg h4] at h
            cases h
            cases ht

/-- Every record emitted by a full run satisfies the shape invariant. -/
theorem resolveAll_shapeInv :
    ∀ (l : List (String × SchemaProxy)) (ts : List Ty) (ds : List Diag),
      resolveAll l = some (ts, ds) → ∀ t ∈ ts, shapeInv t := by
  intro l
  induction l with
  | nil =>
    intro ts ds h t ht
    simp only [resolveAll, Option.some.injEq, Prod.mk.injEq] at h
    rw [← h.1] at ht
    cases ht
  | cons e rest ihl =>
    obtain ⟨k, sp⟩ := e
    intro ts ds h t ht
    cases sp with
    | ref r =>
      simp only [resolveAll] at h
      cases hr : resolveAll rest with
      | none => rw [hr] at h; cases h
      | some p =>
        obtain ⟨ts2, ds2⟩ := p
        rw [hr] at h
        simp only [Option.some.injEq, Prod.mk.injEq] at h
        rw [← h.1] at ht
        exact ihl _ _ hr t ht
    | inline schema =>
      simp only [resolveAll] at h
      cases hps : parseSchema k schema with
      | none => rw [hps] at h; cases h
      | some p1 =>
        obtain ⟨ts1, ds1⟩ := p1
        rw [hps] at h
        cases hr : resolveAll rest with
        | none => rw [hr] at h; cases h
        | some p2 =>
          obtain ⟨ts2, ds2⟩ := p2
          rw [hr] at h
          simp only [Option.some.injEq, Prod.mk.injEq] at h
          rw [← h.1] at ht
          rcases List.mem_append.mp ht with hmem | hmem
          · exact parseSchema_shapeInv k schema _ _ hps t hmem
          · exact ihl _ _ hr t hmem

/-- The enum loop in closed form: the entries are the string literals, in
order, named with `toCamel`; each skipped literal leaves one warning. -/
theorem enumStep_foldl (name : String) :
    ∀ (lits : List Lit) (acc : List Enum × List Diag),
      lits.foldl (enumStep name) acc =
        (acc.1 ++ lits.filterMap
          (fun lit => lit.asString.map fun val =>
            ({ name := toCamel val, value := val } : Enum)),
         acc.2 ++ lits.filterMap
          (fun lit => match lit.asString with
            | none => some (Diag.warnEnumSkip name)
            | some _ => none)) := by
  intro lits
  induction lits with
  | nil => intro acc; simp
  | cons l rest ih =>
    intro acc
    cases hls : l.asString with
    | none => simp [enumStep, hls, ih]
    | some val => simp [enumStep, hls, ih]

/-- A successful `parseString` run in closed form. -/
theorem parseString_enum (name : String) (v : Schema) (ts : List Ty)
    (ds : List Diag) (h : parseString name v = some (ts, ds)) :
    ∃ t, ts = [t] ∧
      t.enum = (v.enum.getD []).filterMap
        (fun lit => lit.asString.map fun val =>
          ({ name := toCamel val, value := val } : Enum)) := by
  simp only [parseString] at h
  cases he : v.enum with
  | none =>
    rw [he] at h
    simp only [Option.some.injEq, Prod.mk.injEq] at h
    exact ⟨_, h.1.symm, by simp⟩
  | some lits =>
    rw [he] at h
    cases lits with
    | nil => cases h
    | cons first rest =>
      simp only [enumStep_foldl, Option.some.injEq, Prod.mk.injEq] at h
      refine ⟨_, h.1.symm, ?_⟩
      simp

/-- `parseArray` on items that resolve to a reference: the alias is the raw
final path segment of the reference. -/
theorem parseArray_refItems (name : String) (v : Schema) (r : String)
    (hit : v.items = some (ItemsValue.a (SchemaProxy.ref r))) :
    ∃ t, parseArray name v = some ([t], []) ∧ t.aliasName = lastSegment r ∧
      t.isArray = true ∧ t.typeName = toCamel name ∧ t.schemaName = name := by
  simp only [parseArray, hit]
  exact ⟨_, rfl, rfl, rfl, rfl, rfl⟩

/-- The property-loop body on an inline object property takes the recursive
`parseObject` arm. -/
theorem parsePropertyValue_object (name : String) (req : List String)
    (pn : String) (sub : Schema) (cts : List Ty) (p : Option Property)
    (ds : List Diag) (hty : sub.type.head? = some "object")
    (h : parsePropertyValue name req pn (SchemaProxy.inline sub) = some (cts, p, ds)) :
    parseObject (name ++ "_" ++ pn) sub = some (cts, ds) ∧
    p = some { initialProp req pn with type := toCamel (name ++ "_" ++ pn) } := by
  cases sub with
  | mk sty sdesc se sreq sprops sitems sap =>
    simp only [Schema.type] at hty
    cases sty with
    | nil => cases hty
    | cons ty0 tyrest =>
      simp only [List.head?, Option.some.injEq] at hty
      subst hty
      simp only [parsePropertyValue, Schema.type] at h
      rw [if_neg (show ¬ (("object" : String) = "string") by decide),
          if_neg (show ¬ (("object" : String) = "boolean") by decide),
          if_neg (show ¬ (("object" : String) = "integer") by decide),
          if_pos trivial] at h
      cases hpo : parseObject (name ++ "_" ++ pn)
          (Schema.mk ("object" :: tyrest) sdesc se sreq sprops sitems sap) with
      | none => rw [hpo] at h; cases h
      | some res =>
        obtain ⟨ct, cd⟩ := res
        rw [hpo] at h
        simp only [Option.some.injEq, Prod.mk.injEq] at h
        exact ⟨by rw [h.1, h.2.2], h.2.1.symm⟩

/-- The property-loop body on an array property with `items: true`: the
property keeps `IsArray = true` and the untyped placeholder, with no
children and no diagnostic. -/
theorem parsePropertyValue_arrayItemsB (name : String) (req : List String)
    (pn : String) (sub : Schema) (cts : List Ty) (p : Option Property)
    (ds : List Diag) (hty : sub.type.head? = some "array")
    (hitems : sub.items = some ItemsValue.b)
    (h : parsePropertyValue name req pn (SchemaProxy.inline sub) = some (cts, p, ds)) :
    cts = [] ∧ ds = [] ∧
    p = some { initialProp req pn with isArray := true, type := SorbetUntyped } := by
  cases sub with
  | mk sty sdesc se sreq sprops sitems sap =>
    simp only [Schema.type] at hty
    simp only [Schema.items] at hitems
    subst hitems
    cases sty with
    | nil => cases hty
    | cons ty0 tyrest =>
      simp only [List.head?, Option.some.injEq] at hty
      subst hty
      simp only [parsePropertyValue, Schema.type, Schema.items] at h
      rw [if_neg (show ¬ (("array" : String) = "string") by decide),
          if_neg (show ¬ (("array" : String) = "boolean") by decide),
          if_neg (show ¬ (("array" : String) = "integer") by decide),
          if_neg (show ¬ (("array" : String) = "object") by decide),
          if_pos trivial] at h
      simp only [Option.some.injEq, Prod.mk.injEq] at h
      exact ⟨h.1.symm, h.2.2.symm, h.2.1.symm⟩

/-- A finished property produced for an entry of the list is a member of
the loop's (unsorted) property list. -/
theorem parseProperties_prop_mem (name : String) (req : List String) :
    ∀ (l : List (String × SchemaProxy)) (cts : List Ty) (ps : List Property)
      (ds : List Diag) (pn : String) (v2 : SchemaProxy) (cts1 : List Ty)
      (p1 : Property) (ds1 : List Diag),
      parseProperties name req l = some (cts, ps, ds) → (pn, v2) ∈ l →
      parsePropertyValue name req pn v2 = some (cts1, some p1, ds1) →
      p1 ∈ ps := by
  intro l
  induction l with
  | nil =>
    intro _ _ _ _ _ _ _ _ _ hin
    cases hin
  | cons e rest ihl =>
    obtain ⟨pn', v2'⟩ := e
    intro cts ps ds pn v2 cts1 p1 ds1 h hin hpv
    obtain ⟨cts1', p1', ds1', cts2, ps2, ds2, hpv', hpr, _, hps, _⟩ :=
      parseProperties_cons name req pn' v2' rest cts ps ds h
    rcases List.mem_cons.mp hin with heq | hmem
    · obtain ⟨h1, h2⟩ := Prod.mk.injEq .. ▸ heq
      subst h1
      subst h2
      rw [hpv] at hpv'
      cases hpv'
      rw [hps]
      exact List.mem_cons_self _ _
    · have := ihl cts2 ps2 ds2 pn v2 cts1 p1 ds1 hpr hmem hpv
      rw [hps]
      cases p1' with
      | none => exact this
      | some q => exact List.mem_cons_of_mem _ this

/-- The children emitted for an entry of the list are members of the loop's
child-record list. -/
theorem parseProperties_child_mem (name : String) (req : List String) :
    ∀ (l : List (String × SchemaProxy)) (cts : List Ty) (ps : List Property)
      (ds : List Diag) (pn : String) (v2 : SchemaProxy) (cts1 : List Ty)
      (p1 : Option Property) (ds1 : List Diag),
      parseProperties name req l = some (cts, ps, ds) → (pn, v2) ∈ l →
      parsePropertyValue name req pn v2 = some (cts1, p1, ds1) →
      ∀ t ∈ cts1, t ∈ cts := by
  intro l
  induction l with
  | nil =>
    intro _ _ _ _ _ _ _ _ _ hin
    cases hin
  | cons e rest ihl =>
    obtain ⟨pn', v2'⟩ := e
    intro cts ps ds pn v2 cts1 p1 ds1 h hin hpv t ht
    obtain ⟨cts1', p1', ds1', cts2, ps2, ds2, hpv', hpr, hcts, _, _⟩ :=
      parseProperties_cons name req pn' v2' rest cts ps ds h
    rcases List.mem_cons.mp hin with heq | hmem
    · obtain ⟨h1, h2⟩ := Prod.mk.injEq .. ▸ heq
      subst h1
      subst h2
      rw [hpv] at hpv'
      cases hpv'
      rw [hcts]
      exact List.mem_append_left _ ht
    · rw [hcts]
      exact List.mem_append_right _ (ihl cts2 ps2 ds2 pn v2 cts1 p1 ds1 hpr hmem hpv t ht)

/-- The property-loop body on a plain string property. -/
theorem parsePropertyValue_string (name : String) (req : List String) (pn : String) :
    parsePropertyValue name req pn (SchemaProxy.inline exStringSchema) =
      some ([], some { initialProp req pn with type := "String" }, []) := by
  simp [parsePropertyValue, exStringSchema, Schema.type]

/-- The property loop over a list of plain string properties, in closed
form. -/
theorem parseProperties_strings (name : String) :
    ∀ l : List (String × SchemaProxy),
      (∀ e ∈ l, e.2 = SchemaProxy.inline exStringSchema) →
      parseProperties name [] l = some ([], l.map basketProp, []) := by
  intro l
  induction l with
  | nil => intro _; simp [parseProperties]
  | cons e rest ih =>
    obtain ⟨pn, v2⟩ := e
    intro hall
    have hv2 : v2 = SchemaProxy.inline exStringSchema :=
      hall (pn, v2) (List.mem_cons_self _ _)
    subst hv2
    have hrest := ih (fun e he => hall e (List.mem_cons_of_mem _ he))
    simp only [parseProperties, parsePropertyValue_string, hrest]
    simp [basketProp, initialProp]

/-- Every entry of a successfully processed property list has a successful
loop-body result. -/
theorem parseProperties_entry_some (name : String) (req : List String) :
    ∀ (l : List (String × SchemaProxy)) (cts : List Ty) (ps : List Property)
      (ds : List Diag) (pn : String) (v2 : SchemaProxy),
      parseProperties name req l = some (cts, ps, ds) → (pn, v2) ∈ l →
      ∃ cts1 p1 ds1, parsePropertyValue name req pn v2 = some (cts1, p1, ds1) := by
  intro l
  induction l with
  | nil =>
    intro _ _ _ _ _ _ hin
    cases hin
  | cons e rest ihl =>
    obtain ⟨pn', v2'⟩ := e
    intro cts ps ds pn v2 h hin
    obtain ⟨cts1, p1, ds1, cts2, ps2, ds2, hpv, hpr, _, _, _⟩ :=
      parseProperties_cons name req pn' v2' rest cts ps ds h
    rcases List.mem_cons.mp hin with heq | hmem
    · obtain ⟨h1, h2⟩ := Prod.mk.injEq .. ▸ heq
      subst h1
      subst h2
      exact ⟨_, _, _, hpv⟩
    · exact ihl cts2 ps2 ds2 pn v2 hpr hmem

/-! The claim theorems. -/

/-- C1: claim — for a fixed input document, two runs of the resolution
engine emit identical ordered `Type` lists, both for top-level records and
for synthesized nested-object children within one parent.  The code ranges
over Go maps, whose iteration order is not fixed, so the claim fails: the
same two-schema component map in its two iteration orders yields different
ordered lists, and the same parent object with two inline nested-object
properties emits its children in different orders.  This theorem records
the failing inputs of the code bug. -/
theorem c1_map_iteration_order_changes_output :
    (exDocAB.Perm exDocBA ∧ resolveAll exDocAB ≠ resolveAll exDocBA) ∧
    (exTwoNested.properties.Perm exTwoNestedB.properties ∧
      exTwoNested.type = exTwoNestedB.type ∧
      exTwoNested.required = exTwoNestedB.required ∧
      exTwoNested.additionalProperties = exTwoNestedB.additionalProperties ∧
      parseObject "Pet" exTwoNested ≠ parseObject "Pet" exTwoNestedB) := by
  refine ⟨⟨?_, by decide⟩, ?_, by decide, by decide, rfl, by decide⟩
  · simp only [exDocAB, exDocBA]
    exact List.Perm.swap _ _ _
  · simp only [exTwoNested, exTwoNestedB, Schema.properties]
    exact List.Perm.swap _ _ _

/-- C2 counterexample: a string schema with a surviving enum literal is
emitted with `Alias = "String"` AND a non-empty `Enum` list, refuting the
claim that no emitted record has both. -/
theorem c2_counterexample_alias_and_enum :
    parseSchema "status" exAvailSchema = some ([exStatusTy], []) ∧
    exStatusTy.aliasName ≠ "" ∧ exStatusTy.enum ≠ [] ∧
    exStatusTy.isEnum = true := by
  decide

/-- C2 (amended): every record a full run emits satisfies the weaker shape
invariant that actually holds: a struct-shaped record (`IsObject`) carries
no alias and no enum list, and an enum-shaped record (`IsEnum`) always also
carries `Alias = "String"` and no struct base class; the `IsObject`/`IsEnum`
predicates are derived solely from `BaseClass` and `Enum`. -/
theorem c2_shape_invariant :
    ∀ (l : List (String × SchemaProxy)) (ts : List Ty) (ds : List Diag),
      resolveAll l = some (ts, ds) → ∀ t ∈ ts,
        (t.isObject = true → t.aliasName = "" ∧ t.enum = []) ∧
        (t.isEnum = true → t.aliasName = "String" ∧ t.baseClass = "") := by
  intro l ts ds h t ht
  have hs := resolveAll_shapeInv l ts ds h t ht
  constructor
  · intro hio
    simp only [Ty.isObject] at hio
    exact hs.1 (eq_of_beq hio).symm
  · intro hie
    simp only [Ty.isEnum] at hie
    have hne : t.enum ≠ [] := by
      intro hnil
      rw [hnil] at hie
      simp at hie
    exact hs.2 hne

/-- Witness for C2's amended theorem at a concrete one-schema run. -/
theorem c2_shape_invariant_witness :
    resolveAll [("status", SchemaProxy.inline exAvailSchema)] =
      some ([exStatusTy], []) ∧
    exStatusTy ∈ [exStatusTy] ∧
    ((exStatusTy.isObject = true → exStatusTy.aliasName = "" ∧ exStatusTy.enum = []) ∧
     (exStatusTy.isEnum = true →
       exStatusTy.aliasName = "String" ∧ exStatusTy.baseClass = "")) :=
  ⟨by decide, by decide,
   c2_shape_invariant [("status", SchemaProxy.inline exAvailSchema)] [exStatusTy] []
     (by decide) exStatusTy (by decide)⟩

/-- C3: claim — the resolution engine never raises a hard failure or panics
for a single malformed schema entry, including a string schema whose enum
literal list is present but empty; it degrades locally so siblings are
still processed.  The code indexes `v.Enum[0]` without a length check, so a
present-but-empty enum list panics (modelled as `none`), the schema's
resolution dies, and the sibling schema of the same document is never
processed.  This theorem records the failing input of the code bug. -/
theorem c3_empty_enum_list_panics :
    parseString "status" exEmptyEnumSchema = none ∧
    parseSchema "status" exEmptyEnumSchema = none ∧
    resolveAll [("status", SchemaProxy.inline exEmptyEnumSchema),
                ("ok", SchemaProxy.inline exBooleanSchema)] = none := by
  decide

/-- C4: a string schema with enum literals `["available", "pending", 42]`
resolves to one enum-shaped record with exactly the two entries for
`available` and `pending`, one diagnostic for the non-string literal `42`,
and no abort (the run returns a value, not the panic `none`). -/
theorem c4_enum_degradation :
    parseSchema "petStatus" exStatusEnumSchema =
      some ([exPetStatusTy], [Diag.warnEnumSkip "petStatus"]) ∧
    exPetStatusTy.enum.map Enum.value = ["available", "pending"] ∧
    exPetStatusTy.enum.map Enum.name = ["Available", "Pending"] ∧
    exPetStatusTy.isEnum = true := by
  decide

/-- C5: for every object schema the parent record's `Properties` list is
stably sorted by the normalized property name, ascending: it is pairwise
ordered under `propLe` (the complement of the Go `less`), it is a
permutation of the unsorted list that the loop built, and any
`propLe`-ordered sublist of the unsorted list survives in order (the
stability of the sort); moreover, for the concrete property map
`{zebra, apple, mango}` every iteration order of the map yields the
property names `apple, mango, zebra`. -/
theorem c5_property_ordering :
    (∀ (name : String) (v : Schema) (ts : List Ty) (ds : List Diag) (parent : Ty),
       parseObject name v = some (ts, ds) → ts.getLast? = some parent →
       parent.properties.Pairwise propLe ∧
       ∃ cts propList propDiags,
         parseProperties name v.required v.properties =
           some (cts, propList, propDiags) ∧
         parent.properties.Perm propList ∧
         (∀ c : List Property, c.Pairwise propLe → c.Sublist propList →
           c.Sublist parent.properties)) ∧
    (∀ l : List (String × SchemaProxy), l.Perm zamEntries →
       ∃ parent, parseObject "Basket" (Schema.mk ["object"] "" none [] l none .absent) =
           some ([parent], []) ∧
         parent.properties.map Property.name = ["apple", "mango", "zebra"]) := by
  constructor
  · intro name v ts ds parent h hlast
    obtain ⟨cts, pl, pds, hpp, hts, _⟩ := parseObject_decomp name v ts ds h
    rw [hts, List.getLast?_concat] at hlast
    obtain rfl : parentRecord name v pl = parent := by
      simpa using hlast
    refine ⟨List.sorted_insertionSort propLe pl, cts, pl, pds, hpp,
            List.perm_insertionSort propLe pl, ?_⟩
    intro c hc hsub
    exact List.sublist_insertionSort hc hsub
  · intro l hperm
    have hsub : ∀ e ∈ l, e.2 = SchemaProxy.inline exStringSchema := by
      intro e he
      have hm : e ∈ zamEntries := hperm.mem_iff.mp he
      simp only [zamEntries, List.mem_cons, List.not_mem_nil, or_false] at hm
      rcases hm with h | h | h
      all_goals (subst h; rfl)
    have hpp := parseProperties_strings "Basket" l hsub
    refine ⟨parentRecord "Basket" (Schema.mk ["object"] "" none [] l none .absent)
              (l.map basketProp), ?_, ?_⟩
    · simp [parseObject, hpp, parentRecord, parseAdditionalProps]
    · have hsorted : ((l.map basketProp).insertionSort propLe).Pairwise propLe :=
        List.sorted_insertionSort propLe _
      have hsortedNames :
          (((l.map basketProp).insertionSort propLe).map Property.name).Pairwise strLe :=
        hsorted.map _ (fun _ _ hab => hab)
      have hnamesPerm :
          (((l.map basketProp).insertionSort propLe).map Property.name).Perm
            (["apple", "mango", "zebra"] : List String) := by
        have h1 : (((l.map basketProp).insertionSort propLe).map Property.name).Perm
            ((l.map basketProp).map Property.name) :=
          (List.perm_insertionSort propLe _).map _
        have h2 : (l.map basketProp).map Property.name =
            l.map (fun e => toSnake e.1) := by
          simp [List.map_map, basketProp, Function.comp]
        have h3 : (l.map (fun e : String × SchemaProxy => toSnake e.1)).Perm
            (zamEntries.map (fun e => toSnake e.1)) := hperm.map _
        have h4 : zamEntries.map (fun e : String × SchemaProxy => toSnake e.1) =
            ["zebra", "apple", "mango"] := by decide
        have h5 : (["zebra", "apple", "mango"] : List String).Perm
            ["apple", "mango", "zebra"] := by decide
        exact ((h1.trans (h2 ▸ h3)).trans (h4 ▸ List.Perm.refl _)).trans h5
      have htargetSorted :
          (["apple", "mango", "zebra"] : List String).Pairwise strLe := by decide
      have heq := List.eq_of_perm_of_sorted hnamesPerm hsortedNames htargetSorted
      simpa [parentRecord] using heq

/-- Witness for C5 at the `{zebra, apple, mango}` basket schema. -/
theorem c5_property_ordering_witness :
    zamEntries.Perm zamEntries ∧
    (∃ parent,
      parseObject "Basket" (Schema.mk ["object"] "" none [] zamEntries none .absent) =
        some ([parent], []) ∧
      parent.properties.map Property.name = ["apple", "mango", "zebra"]) :=
  ⟨List.Perm.refl _, c5_property_ordering.2 zamEntries (List.Perm.refl _)⟩

/-- C6: for every object schema with an inline nested object property, the
result list is the child records followed by the parent last; among the
children is a struct-shaped record named from the parent name plus the
property name (joined by `_` and normalized with `toCamel`), and the
parent's property for that name has its type reference set to that same
normalized name. -/
theorem c6_nested_object_extraction :
    ∀ (name : String) (v : Schema) (ts : List Ty) (ds : List Diag)
      (pn : String) (sub : Schema),
      parseObject name v = some (ts, ds) →
      (pn, SchemaProxy.inline sub) ∈ v.properties →
      sub.type.head? = some "object" →
      ∃ childTs parent, ts = childTs ++ [parent] ∧
        (∃ child ∈ childTs, child.schemaName = name ++ "_" ++ pn ∧
          child.typeName = toCamel (name ++ "_" ++ pn) ∧
          child.baseClass = "T::Struct") ∧
        (∃ p ∈ parent.properties, p.schemaName = pn ∧
          p.type = toCamel (name ++ "_" ++ pn)) := by
  intro name v ts ds pn sub h hin hty
  obtain ⟨cts, pl, pds, hpp, hts, _⟩ := parseObject_decomp name v ts ds h
  obtain ⟨cts1, p1, ds1, hpv⟩ :=
    parseProperties_entry_some name v.required v.properties cts pl pds pn
      (SchemaProxy.inline sub) hpp hin
  obtain ⟨hpo, hp1⟩ :=
    parsePropertyValue_object name v.required pn sub cts1 p1 ds1 hty hpv
  obtain ⟨cc, pl2, pds2, hpp2, hts2, _⟩ := parseObject_decomp _ sub cts1 ds1 hpo
  refine ⟨cts, parentRecord name v pl, hts, ?_, ?_⟩
  · refine ⟨parentRecord (name ++ "_" ++ pn) sub pl2, ?_, rfl, rfl, rfl⟩
    have hmem1 : parentRecord (name ++ "_" ++ pn) sub pl2 ∈ cts1 := by
      rw [hts2]
      exact List.mem_append_right _ (List.mem_singleton.mpr rfl)
    exact parseProperties_child_mem name v.required v.properties cts pl pds pn
      (SchemaProxy.inline sub) cts1 p1 ds1 hpp hin hpv _ hmem1
  · have hpmem := parseProperties_prop_mem name v.required v.properties cts pl pds pn
      (SchemaProxy.inline sub) cts1 _ ds1 hpp hin (hp1 ▸ hpv)
    refine ⟨{ initialProp v.required pn with
               type := toCamel (name ++ "_" ++ pn) }, ?_, rfl, rfl⟩
    simp only [parentRecord]
    exact (List.mem_insertionSort propLe).mpr hpmem

/-- Witness for C6 at the concrete `Pet` schema with nested `address`. -/
theorem c6_nested_object_extraction_witness :
    parseObject "Pet" exPetSchema = some ([exPetAddressTy, exPetTy], []) ∧
    ("address", SchemaProxy.inline exAddressSubSchema) ∈ exPetSchema.properties ∧
    exAddressSubSchema.type.head? = some "object" ∧
    (∃ childTs parent, ([exPetAddressTy, exPetTy] : List Ty) = childTs ++ [parent] ∧
      (∃ child ∈ childTs, child.schemaName = "Pet" ++ "_" ++ "address" ∧
        child.typeName = toCamel ("Pet" ++ "_" ++ "address") ∧
        child.baseClass = "T::Struct") ∧
      (∃ p ∈ parent.properties, p.schemaName = "address" ∧
        p.type = toCamel ("Pet" ++ "_" ++ "address"))) :=
  ⟨by decide,
   List.mem_cons_of_mem _ (List.mem_singleton.mpr rfl),
   by decide,
   c6_nested_object_extraction "Pet" exPetSchema [exPetAddressTy, exPetTy] []
     "address" exAddressSubSchema (by decide)
     (List.mem_cons_of_mem _ (List.mem_singleton.mpr rfl)) (by decide)⟩

/-- C7 counterexample: the emitted enum entry for the literal `available`
has `Name = "Available"` (PascalCase), while the property form — lowercase
words joined by a separator, `toSnake` — of `available` is `available`;
so the claim that `Name` is the literal rendered in property form fails. -/
theorem c7_counterexample_enum_name :
    parseSchema "status" exAvailSchema = some ([exStatusTy], []) ∧
    exStatusTy.enum = [{ name := "Available", value := "available" }] ∧
    toSnake "available" = "available" ∧
    ("Available" : String) ≠ "available" := by
  decide

/-- C7 (amended): for every string enum literal that survives validation,
the emitted entry's `Name` is the literal rendered in Type form
(`toCamel`, the same normalization used for type names), and `Value`
preserves the original literal; the enum list is exactly the surviving
string literals in input order. -/
theorem c7_enum_name_is_type_form :
    ∀ (name : String) (v : Schema) (ts : List Ty) (ds : List Diag),
      parseString name v = some (ts, ds) →
      ∃ t, ts = [t] ∧
        t.enum = (v.enum.getD []).filterMap
          (fun lit => lit.asString.map fun val =>
            ({ name := toCamel val, value := val } : Enum)) ∧
        ∀ e ∈ t.enum, e.name = toCamel e.value := by
  intro name v ts ds h
  obtain ⟨t, hts, henum⟩ := parseString_enum name v ts ds h
  refine ⟨t, hts, henum, ?_⟩
  intro e he
  rw [henum] at he
  obtain ⟨lit, _, hmap⟩ := List.mem_filterMap.mp he
  obtain ⟨val, _, heq⟩ := Option.map_eq_some'.mp hmap
  rw [← heq]

/-- Witness for C7's amended theorem at the `available` literal. -/
theorem c7_enum_name_is_type_form_witness :
    parseString "status" exAvailSchema = some ([exStatusTy], []) ∧
    (∃ t, ([exStatusTy] : List Ty) = [t] ∧
      t.enum = ((exAvailSchema.enum.getD []).filterMap
        (fun lit => lit.asString.map fun val =>
          ({ name := toCamel val, value := val } : Enum))) ∧
      ∀ e ∈ t.enum, e.name = toCamel e.value) :=
  ⟨by decide, c7_enum_name_is_type_form "status" exAvailSchema [exStatusTy] []
    (by decide)⟩

/-- C8 counterexample: a top-level array whose items reference
`#/components/schemas/pet_tag` is emitted with `Alias = "pet_tag"` — the
raw final path segment — while the normalized (PascalCase) name would be
`PetTag`; the claim that the alias is the normalized name fails. -/
theorem c8_counterexample_alias_unnormalized :
    parseArray "Tags" exTagsSchema = some ([exTagsTy], []) ∧
    exTagsTy.aliasName = "pet_tag" ∧
    toCamel "pet_tag" = "PetTag" ∧
    exTagsTy.aliasName ≠ toCamel "pet_tag" := by
  decide

/-- C8 (amended): for every top-level array schema whose items resolve to a
reference, the emitted alias-shaped record's `Alias` equals the reference's
final path segment verbatim (no normalization is applied). -/
theorem c8_alias_is_raw_segment :
    ∀ (name : String) (v : Schema) (r : String),
      v.items = some (ItemsValue.a (SchemaProxy.ref r)) →
      ∃ t, parseArray name v = some ([t], []) ∧ t.aliasName = lastSegment r ∧
        t.isArray = true := by
  intro name v r hit
  obtain ⟨t, h1, h2, h3, _, _⟩ := parseArray_refItems name v r hit
  exact ⟨t, h1, h2, h3⟩

/-- Witness for C8's amended theorem at the `pet_tag` reference. -/
theorem c8_alias_is_raw_segment_witness :
    exTagsSchema.items =
      some (ItemsValue.a (SchemaProxy.ref "#/components/schemas/pet_tag")) ∧
    (∃ t, parseArray "Tags" exTagsSchema = some ([t], []) ∧
      t.aliasName = lastSegment "#/components/schemas/pet_tag" ∧
      t.isArray = true) :=
  ⟨rfl, c8_alias_is_raw_segment "Tags" exTagsSchema
    "#/components/schemas/pet_tag" rfl⟩

/-- C9 counterexample: an object whose additional-properties schema is
integer-typed — a value type other than string — is emitted with
`AdditionalProperties = "Integer"` (set, not unset) and no diagnostic at
all; the claim that only string yields a marker and any other value type
is left unset with a diagnostic fails. -/
theorem c9_counterexample_integer_marker :
    parseObject "Data" exIntMapSchema = some ([exIntMapTy], []) ∧
    exIntMapTy.additionalProperties = "Integer" ∧
    exIntMapTy.additionalProperties ≠ "" := by
  decide

/-- C9 (amended): for every object schema whose additional-properties
specification is an inline schema: a string value type yields the `String`
marker, an integer value type yields the `Integer` marker, and any other
value type leaves the field unset and emits the "not yet handled"
diagnostic. -/
theorem c9_additional_props_handling :
    ∀ (name : String) (v : Schema) (ts : List Ty) (ds : List Diag)
      (s : Schema) (t0 : String) (trest : List String),
      parseObject name v = some (ts, ds) →
      v.additionalProperties = AddPropsValue.schemaV (SchemaProxy.inline s) →
      s.type = t0 :: trest →
      ∃ cts parent, ts = cts ++ [parent] ∧
        (t0 = "string" → parent.additionalProperties = "String") ∧
        (t0 = "integer" → parent.additionalProperties = "Integer") ∧
        (t0 ≠ "string" → t0 ≠ "integer" →
          parent.additionalProperties = "" ∧
          Diag.unmatchedAdditionalProps name t0 ∈ ds) := by
  intro name v ts ds s t0 trest h hap hsty
  obtain ⟨cts, pl, pds, hpp, hts, hds⟩ := parseObject_decomp name v ts ds h
  cases s with
  | mk sty sd se sreq sprops sit sap =>
    simp only [Schema.type] at hsty
    subst hsty
    refine ⟨cts, parentRecord name v pl, hts, ?_, ?_, ?_⟩
    · intro h0
      subst h0
      have happ : parseAdditionalProps name v.additionalProperties = ("String", []) := by
        rw [hap]
        simp [parseAdditionalProps, SchemaProxy.schema, Schema.type]
      show (parseAdditionalProps name v.additionalProperties).1 = "String"
      rw [happ]
    · intro h0
      subst h0
      have happ : parseAdditionalProps name v.additionalProperties = ("Integer", []) := by
        rw [hap]
        simp [parseAdditionalProps, SchemaProxy.schema, Schema.type]
      show (parseAdditionalProps name v.additionalProperties).1 = "Integer"
      rw [happ]
    · intro hn0 hn1
      have happ : parseAdditionalProps name v.additionalProperties =
          ("", [Diag.unmatchedAdditionalProps name t0]) := by
        rw [hap]
        simp [parseAdditionalProps, SchemaProxy.schema, Schema.type, hn0, hn1]
      refine ⟨?_, ?_⟩
      · show (parseAdditionalProps name v.additionalProperties).1 = ""
        rw [happ]
      · rw [hds, happ]
        exact List.mem_append_right _ (List.mem_singleton.mpr rfl)

/-- Witness for C9's amended theorem at the integer-typed
additional-properties schema. -/
theorem c9_additional_props_handling_witness :
    parseObject "Data" exIntMapSchema = some ([exIntMapTy], []) ∧
    exIntMapSchema.additionalProperties =
      AddPropsValue.schemaV (SchemaProxy.inline
        (Schema.mk ["integer"] "" none [] [] none AddPropsValue.absent)) ∧
    (∃ cts parent, ([exIntMapTy] : List Ty) = cts ++ [parent] ∧
      (("integer" : String) = "string" → parent.additionalProperties = "String") ∧
      (("integer" : String) = "integer" → parent.additionalProperties = "Integer") ∧
      (("integer" : String) ≠ "string" → ("integer" : String) ≠ "integer" →
        parent.additionalProperties = "" ∧
        Diag.unmatchedAdditionalProps "Data" "integer" ∈ ([] : List Diag))) :=
  ⟨by decide, rfl,
   c9_additional_props_handling "Data" exIntMapSchema [exIntMapTy] []
     (Schema.mk ["integer"] "" none [] [] none AddPropsValue.absent) "integer" []
     (by decide) rfl rfl⟩

/-- C10: an object property declared as an array with an `items: true`
unconstrained schema is still emitted, with `IsArray = true` and its type
the untyped placeholder `T.untyped`, and (at the concrete one-property
schema) without any diagnostic; by contrast, a top-level array with
`items: true` has its `Alias` cleared and the open-array marker recorded in
`AdditionalProperties`. -/
theorem c10_array_items_true :
    (∀ (name : String) (v : Schema) (ts : List Ty) (ds : List Diag)
       (pn : String) (sub : Schema),
       parseObject name v = some (ts, ds) →
       (pn, SchemaProxy.inline sub) ∈ v.properties →
       sub.type.head? = some "array" → sub.items = some ItemsValue.b →
       ∃ cts parent, ts = cts ++ [parent] ∧
         ∃ p ∈ parent.properties, p.schemaName = pn ∧ p.isArray = true ∧
           p.type = "T.untyped") ∧
    (∀ (name : String) (v : Schema), v.items = some ItemsValue.b →
       ∃ t, parseArray name v = some ([t], []) ∧ t.aliasName = "" ∧
         t.additionalProperties = "T.untyped" ∧ t.isArray = true) ∧
    parseObject "Pet" exItemsBObjSchema = some ([exItemsBTy], []) := by
  refine ⟨?_, ?_, by decide⟩
  · intro name v ts ds pn sub h hin hty hitems
    obtain ⟨cts, pl, pds, hpp, hts, _⟩ := parseObject_decomp name v ts ds h
    obtain ⟨cts1, p1, ds1, hpv⟩ :=
      parseProperties_entry_some name v.required v.properties cts pl pds pn
        (SchemaProxy.inline sub) hpp hin
    obtain ⟨_, _, hp1⟩ :=
      parsePropertyValue_arrayItemsB name v.required pn sub cts1 p1 ds1 hty hitems hpv
    have hpmem := parseProperties_prop_mem name v.required v.properties cts pl pds pn
      (SchemaProxy.inline sub) cts1 _ ds1 hpp hin (hp1 ▸ hpv)
    refine ⟨cts, parentRecord name v pl, hts,
      { initialProp v.required pn with isArray := true, type := SorbetUntyped },
      ?_, rfl, rfl, rfl⟩
    simp only [parentRecord]
    exact (List.mem_insertionSort propLe).mpr hpmem
  · intro name v hitems
    cases v with
    | mk ty d e req props i ap =>
      simp only [Schema.items] at hitems
      subst hitems
      exact ⟨{ schemaName := name, typeName := toCamel name, filename := toSnake name,
               comment := prepareComment d, aliasName := "",
               additionalProperties := SorbetUntyped, isArray := true },
             by simp [parseArray], rfl, rfl, rfl⟩

/-- Witness for C10 at the concrete `tags` property and a concrete
top-level `items: true` array. -/
theorem c10_array_items_true_witness :
    parseObject "Pet" exItemsBObjSchema = some ([exItemsBTy], []) ∧
    (∃ cts parent, ([exItemsBTy] : List Ty) = cts ++ [parent] ∧
      ∃ p ∈ parent.properties, p.schemaName = "tags" ∧ p.isArray = true ∧
        p.type = "T.untyped") ∧
    (∃ t, parseArray "Tags"
        (Schema.mk ["array"] "" none [] [] (some ItemsValue.b) AddPropsValue.absent) =
        some ([t], []) ∧ t.aliasName = "" ∧ t.additionalProperties = "T.untyped" ∧
      t.isArray = true) :=
  ⟨by decide,
   c10_array_items_true.1 "Pet" exItemsBObjSchema [exItemsBTy] [] "tags"
     (Schema.mk ["array"] "" none [] [] (some ItemsValue.b) AddPropsValue.absent)
     (by decide) (List.mem_singleton.mpr rfl) rfl rfl,
   c10_array_items_true.2.1 "Tags"
     (Schema.mk ["array"] "" none [] [] (some ItemsValue.b) AddPropsValue.absent) rfl⟩

end SchemaSorbet
